import Mathlib

/-!
# Verification of the Cows-and-Bulls deduction engine

A shallow embedding of `src/game/mod.rs` (the `Game` struct and its
methods) together with proofs of the specified properties.

Modelling conventions:
* Rust `u8` digits are `Nat` (all arising values are `< 10`, far from any
  overflow); the `u32` try counter is a `Nat` reduced modulo `2 ^ 32` on
  every increment, mirroring wrap-around semantics of the `u32` field.
* The 10×4 `hint_table` array is a total function `Nat → Nat → Hint`;
  index bounds are tracked by separate theorems (all digit indices that
  the code produces are `< 10`, all position indices are the literals
  `0..4`).
* Fallible operations (the unconditional `unwrap`s inside `from_string`)
  are modelled with `Option`: `none` corresponds to a panic.
* `for` loops become `List.foldl` over `List.range`.
-/

/-- The `Hint` enum of `mod.rs` (lines 13–23). -/
inductive Hint where
  | Unknown
  | Maybe
  | Here
  | NotHere
deriving DecidableEq, BEq, Repr

/-- The type of the `hint_table` field: digit → position → hint. -/
def HintTable : Type := Nat → Nat → Hint

/-- Writing one cell of the hint table: `self.hint_table[d][p] = h`. -/
def setCell (t : HintTable) (d p : Nat) (h : Hint) : HintTable :=
  fun d2 p2 => if d2 = d ∧ p2 = p then h else t d2 p2

/-- One character of the guess string parsed by
`x.to_string().parse::<u8>()` (mod.rs line 293): succeeds exactly on a
decimal-numeral character, yielding its value; a failed parse is the
`unwrap` panic, modelled as `none`. -/
def parseDigit (c : Char) : Option Nat :=
  if c.isDigit then some (c.toNat - 48) else none

/-- The `chars().map(parse.unwrap()).collect::<Vec<u8>>()` pipeline of
`from_string` (mod.rs lines 291–294): parse every character, the first
failure being a panic. -/
def parseDigits : List Char → Option (List Nat)
  | [] => some []
  | c :: rest => do
    let d ← parseDigit c
    let ds ← parseDigits rest
    pure (d :: ds)

/-- `Game::from_string` (mod.rs lines 279–306): parse all characters,
then read elements `0..4` of the resulting vector (each `get(i).unwrap()`
panics — `none` — when the vector is shorter). -/
def from_string (value : List Char) : Option (List Nat) := do
  let input ← parseDigits value
  let a0 ← input.get? 0
  let a1 ← input.get? 1
  let a2 ← input.get? 2
  let a3 ← input.get? 3
  pure [a0, a1, a2, a3]

/-- The inner `for j in 0..4 { self.hint_table[v][j] = Hint::NotHere }`
loop shared by rules 1 and 2 of `analyze`. -/
def setRow (t : HintTable) (v : Nat) : HintTable :=
  (List.range 4).foldl (fun t2 j => setCell t2 v j Hint.NotHere) t

/-- Rule 1 body (mod.rs lines 134–153): for every digit `v` of the guess
mark the whole row `v` as `NotHere`. -/
def rule1 (input : List Nat) (t : HintTable) : HintTable :=
  input.foldl (fun t1 v => setRow t1 v) t

/-- The inner `is_present` loop of rule 2 (mod.rs lines 162–173). -/
def is_present (input : List Nat) (i : Nat) : Bool :=
  input.foldl (fun b v => if i = v then true else b) false

/-- Rule 2 body (mod.rs lines 157–186): every digit `0..10` not present
in the guess gets its whole row marked `NotHere`. -/
def rule2 (input : List Nat) (t : HintTable) : HintTable :=
  (List.range 10).foldl
    (fun t1 i => if is_present input i = false then setRow t1 i else t1)
    t

/-- Rule 3 body (mod.rs lines 190–202): every previously `Unknown` cell
`(guess[i], i)` becomes `Maybe`. -/
def rule3 (input : List Nat) (t : HintTable) : HintTable :=
  (List.range 4).foldl
    (fun t1 i =>
      if t1 (input.getD i 0) i = Hint.Unknown
      then setCell t1 (input.getD i 0) i Hint.Maybe
      else t1)
    t

/-- The count `c` of rule 4 (mod.rs lines 209–215): how many cells
`(guess[i], i)` already hold `NotHere`. -/
def countNotHere (input : List Nat) (t : HintTable) : Nat :=
  (List.range 4).foldl
    (fun c i => if t (input.getD i 0) i = Hint.NotHere then c + 1 else c)
    0

/-- Rule 4 body (mod.rs lines 206–228).  Note the faithful rendering of
line 224: the source reads `self.hint_table[v][i] == Hint::Here;` — an
equality *comparison* whose result is discarded, not an assignment — so
the loop body leaves the table unchanged in both branches. -/
def rule4 (input : List Nat) (bulls : Nat) (t : HintTable) : HintTable :=
  if countNotHere input t + bulls = 4 then
    (List.range 4).foldl
      (fun t1 i =>
        if t1 (input.getD i 0) i = Hint.Unknown then
          let _cmp := t1 (input.getD i 0) i == Hint.Here
          t1
        else t1)
      t
  else t

/-- Rule 5 body (mod.rs lines 232–241): every cell `(guess[i], i)` that
is `Maybe` or `Unknown` becomes `NotHere`. -/
def rule5 (input : List Nat) (t : HintTable) : HintTable :=
  (List.range 4).foldl
    (fun t1 i =>
      if t1 (input.getD i 0) i = Hint.Maybe ∨ t1 (input.getD i 0) i = Hint.Unknown
      then setCell t1 (input.getD i 0) i Hint.NotHere
      else t1)
    t

/-- The guarded application of rule 1 (mod.rs line 134). -/
def stage1 (input : List Nat) (cows bulls : Nat) (t : HintTable) : HintTable :=
  if cows = 0 ∧ bulls = 0 then rule1 input t else t

/-- The guarded application of rule 2 (mod.rs line 157). -/
def stage2 (input : List Nat) (cows bulls : Nat) (t : HintTable) : HintTable :=
  if cows + bulls = 4 then rule2 input t else t

/-- The guarded application of rule 3 (mod.rs line 190). -/
def stage3 (input : List Nat) (bulls : Nat) (t : HintTable) : HintTable :=
  if 0 < bulls then rule3 input t else t

/-- The first three (unconditionally sequential) rule applications of
`analyze` (mod.rs lines 134–202): this is the state of the hint table
just before rule 4 / rule 5 run. -/
def preRules (input : List Nat) (cows bulls : Nat) (t : HintTable) : HintTable :=
  stage3 input bulls (stage2 input cows bulls (stage1 input cows bulls t))

/-- The whole body of `Game::analyze` after parsing (mod.rs lines
127–242).  Rules 1–3 are independent `if`s; rule 4 and rule 5 form an
`if … else if …` chain. -/
def analyzeCore (input : List Nat) (cows bulls : Nat) (t : HintTable) : HintTable :=
  let t3 := preRules input cows bulls t
  if cows = 0 ∧ 0 < bulls then rule4 input bulls t3
  else if 0 < cows ∧ bulls = 0 then rule5 input t3
  else t3

/-- The counting loops of `Game::try` (mod.rs lines 96–115): for each
position a bull when the digits coincide, and for every ordered pair
`(i, j)` with `i ≠ j` a cow when `secret[i] == input[j]`.  Result is the
`(cows, bulls)` pair. -/
def tryCore (secret input : List Nat) : Nat × Nat :=
  (List.range 4).foldl
    (fun cb i =>
      let cb2 := if secret.getD i 0 = input.getD i 0 then (cb.1, cb.2 + 1) else cb
      (List.range 4).foldl
        (fun cb3 j =>
          if i ≠ j ∧ secret.getD i 0 = input.getD j 0 then (cb3.1 + 1, cb3.2) else cb3)
        cb2)
    (0, 0)

/-- The comparison loop of `Game::guess` (mod.rs lines 73–85): `false` as
soon as one position differs, `true` otherwise. -/
def guessCore (secret input : List Nat) : Bool :=
  (List.range 4).all (fun i => secret.getD i 0 == input.getD i 0)

/-- The duplicate-search loops of `Game::check_unique_digits` (mod.rs
lines 252–260): `false` as soon as positions `i < j` hold equal digits. -/
def check_unique_digitsCore (input : List Nat) : Bool :=
  (List.range 4).all (fun i =>
    (List.range' (i + 1) (3 - i)).all (fun j => !(input.getD i 0 == input.getD j 0)))

/-- The `Game` struct (mod.rs lines 27–39). -/
structure Game where
  secret_number : List Nat
  tries : Nat
  hint_table : HintTable

/-- `Game::new` (mod.rs lines 49–62), with the randomly generated secret
taken as a parameter. -/
def Game.new (secret : List Nat) : Game :=
  { secret_number := secret
    tries := 0
    hint_table := fun _ _ => Hint.Unknown }

/-- `Game::guess` (mod.rs lines 66–86). -/
def Game.guess (g : Game) (variant : List Char) : Option Bool :=
  (from_string variant).map (fun input => guessCore g.secret_number input)

/-- `Game::try` (mod.rs lines 90–122): returns the updated game (the
`u32` field `tries` incremented with wrap-around) together with the
`(cows, bulls)` pair. -/
def Game.«try» (g : Game) (variant : List Char) : Option (Game × (Nat × Nat)) :=
  (from_string variant).map (fun input =>
    ({ g with tries := (g.tries + 1) % 2 ^ 32 }, tryCore g.secret_number input))

/-- `Game::analyze` (mod.rs lines 127–242). -/
def Game.analyze (g : Game) (variant : List Char) (cows bulls : Nat) : Option Game :=
  (from_string variant).map (fun input =>
    { g with hint_table := analyzeCore input cows bulls g.hint_table })

/-- `Game::check_unique_digits` (mod.rs lines 246–261). -/
def Game.check_unique_digits (_g : Game) (variant : List Char) : Option Bool :=
  (from_string variant).map (fun input => check_unique_digitsCore input)

/-- One engine call, as issued by the interactive loop in `main.rs`. -/
inductive EngineOp where
  | score (variant : List Char)
  | updateHints (variant : List Char) (cows bulls : Nat)
  | isSecret (variant : List Char)
  | hasUniqueDigits (variant : List Char)

/-- A guess string is well formed when it has exactly 4 characters, each
a decimal numeral. -/
def wfString (s : List Char) : Prop :=
  s.length = 4 ∧ ∀ c ∈ s, c.isDigit = true

instance (s : List Char) : Decidable (wfString s) := by
  unfold wfString; infer_instance

/-- Well-formedness of the guess string carried by an engine call. -/
def EngineOp.wf : EngineOp → Prop
  | .score v => wfString v
  | .updateHints v _ _ => wfString v
  | .isSecret v => wfString v
  | .hasUniqueDigits v => wfString v

/-- Executing one engine call against the game state.  Calls whose
parsing would panic leave the state unchanged (no such call occurs for
well-formed input). -/
def Game.step (g : Game) : EngineOp → Game
  | .score v =>
      match g.«try» v with
      | some (g2, _) => g2
      | none => g
  | .updateHints v cows bulls =>
      match g.analyze v cows bulls with
      | some g2 => g2
      | none => g
  | .isSecret _ => g
  | .hasUniqueDigits _ => g

/-- Executing a sequence of engine calls. -/
def Game.steps (g : Game) : List EngineOp → Game
  | [] => g
  | op :: rest => (g.step op).steps rest

/-- Number of `score` calls in a sequence of engine calls. -/
def scoreCount : List EngineOp → Nat
  | [] => 0
  | .score _ :: rest => scoreCount rest + 1
  | _ :: rest => scoreCount rest

/-! ## Basic lemmas about cells and folds -/

theorem setCell_self (t : HintTable) (d p : Nat) (h : Hint) :
    setCell t d p h d p = h := by
  simp [setCell]

theorem setCell_other (t : HintTable) (d p : Nat) (h : Hint) (d2 p2 : Nat)
    (hne : ¬(d2 = d ∧ p2 = p)) : setCell t d p h d2 p2 = t d2 p2 := by
  simp [setCell, hne]

/-- `f` changes no cell except possibly writing the fixed hint `h`. -/
def WritesOnly (h : Hint) (f : HintTable → HintTable) : Prop :=
  ∀ t d p, f t d p = t d p ∨ f t d p = h

theorem WritesOnly.preserve_eq {h : Hint} {f : HintTable → HintTable}
    (hw : WritesOnly h f) {t : HintTable} {d p : Nat} (ht : t d p = h) :
    f t d p = h := by
  rcases hw t d p with h1 | h1
  · rw [h1]; exact ht
  · exact h1

theorem WritesOnly.preserve_ne {h h2 : Hint} {f : HintTable → HintTable}
    (hw : WritesOnly h f) (hne : h ≠ h2) {t : HintTable} {d p : Nat}
    (ht : t d p ≠ h2) : f t d p ≠ h2 := by
  rcases hw t d p with h1 | h1 <;> rw [h1] <;> assumption

theorem writesOnly_setCell (v j : Nat) (h : Hint) :
    WritesOnly h (fun t => setCell t v j h) := by
  intro t d p
  by_cases hc : d = v ∧ p = j
  · right; simp [setCell, hc]
  · left; exact setCell_other t v j h d p hc

theorem writesOnly_foldl {α : Type} (h : Hint) (f : HintTable → α → HintTable)
    (hf : ∀ x, WritesOnly h (fun t => f t x)) (l : List α) :
    WritesOnly h (fun t => l.foldl f t) := by
  induction l with
  | nil => intro t d p; left; rfl
  | cons x xs ih =>
    intro t d p
    simp only [List.foldl_cons]
    rcases ih (f t x) d p with h1 | h1
    · rcases hf x t d p with h2 | h2
      · left; exact h1.trans h2
      · right; exact h1.trans h2
    · right; exact h1

/-- A per-cell invariant survives a fold whose every step preserves it. -/
theorem foldl_preserve {α : Type} (P : Hint → Prop) (f : HintTable → α → HintTable)
    (d p : Nat) (hstep : ∀ t x, P (t d p) → P (f t x d p)) :
    ∀ (l : List α) (t : HintTable), P (t d p) → P (l.foldl f t d p) := by
  intro l
  induction l with
  | nil => intro t h; exact h
  | cons x xs ih =>
    intro t h
    simp only [List.foldl_cons]
    exact ih _ (hstep t x h)

/-! ## Lemmas about `setRow` -/

theorem writesOnly_setRow (v : Nat) : WritesOnly Hint.NotHere (fun t => setRow t v) :=
  writesOnly_foldl Hint.NotHere _ (fun j => writesOnly_setCell v j Hint.NotHere) _

theorem setRow_self (t : HintTable) (v p : Nat) (hp : p < 4) :
    setRow t v v p = Hint.NotHere := by
  have hmem : p ∈ List.range 4 := List.mem_range.mpr hp
  unfold setRow
  generalize List.range 4 = l at hmem
  induction l generalizing t with
  | nil => cases hmem
  | cons j xs ih =>
    simp only [List.foldl_cons]
    by_cases hpj : p = j
    · subst hpj
      exact (writesOnly_foldl Hint.NotHere _
        (fun j2 => writesOnly_setCell v j2 Hint.NotHere) xs).preserve_eq
        (setCell_self t v p Hint.NotHere)
    · exact ih _ (by rcases List.mem_cons.mp hmem with h | h; exact absurd h hpj; exact h)

theorem setRow_other (t : HintTable) (v d p : Nat) (hne : d ≠ v) :
    setRow t v d p = t d p := by
  unfold setRow
  generalize List.range 4 = l
  induction l generalizing t with
  | nil => rfl
  | cons j xs ih =>
    simp only [List.foldl_cons]
    rw [ih]
    exact setCell_other t v j Hint.NotHere d p (by tauto)

/-! ## Lemmas about the five rules of `analyze` -/

theorem writesOnly_rule1 (input : List Nat) :
    WritesOnly Hint.NotHere (rule1 input) :=
  writesOnly_foldl Hint.NotHere _ (fun v => writesOnly_setRow v) input

/-- Rule 1 marks the whole row of every guessed digit `NotHere`. -/
theorem rule1_mem (input : List Nat) (t : HintTable) (d p : Nat)
    (hd : d ∈ input) (hp : p < 4) : rule1 input t d p = Hint.NotHere := by
  induction input generalizing t with
  | nil => cases hd
  | cons v xs ih =>
    simp only [rule1, List.foldl_cons] at *
    by_cases hdv : d = v
    · subst hdv
      exact (writesOnly_foldl Hint.NotHere _ (fun v2 => writesOnly_setRow v2)
        xs).preserve_eq (setRow_self t d p hp)
    · exact ih _ ((List.mem_cons.mp hd).resolve_left hdv)

theorem is_present_false (input : List Nat) (d : Nat) (h : d ∉ input) :
    is_present input d = false := by
  unfold is_present
  have : ∀ (l : List Nat) (b : Bool), d ∉ l →
      l.foldl (fun b2 v => if d = v then true else b2) b = b := by
    intro l
    induction l with
    | nil => intro b _; rfl
    | cons v xs ih =>
      intro b hb
      simp only [List.foldl_cons]
      rw [if_neg (fun hdv => hb (List.mem_cons.mpr (Or.inl hdv)))]
      exact ih b (fun hx => hb (List.mem_cons_of_mem v hx))
  exact this input false h

theorem writesOnly_rule2 (input : List Nat) :
    WritesOnly Hint.NotHere (rule2 input) := by
  refine writesOnly_foldl Hint.NotHere _ (fun i => ?_) _
  intro t d p
  by_cases hc : is_present input i = false
  · simpa [hc] using writesOnly_setRow i t d p
  · left; simp [hc]

/-- Rule 2 marks the whole row of every absent digit `0 ≤ d < 10`
`NotHere`. -/
theorem rule2_mem (input : List Nat) (t : HintTable) (d p : Nat)
    (hd : d < 10) (hnp : d ∉ input) (hp : p < 4) :
    rule2 input t d p = Hint.NotHere := by
  have hmem : d ∈ List.range 10 := List.mem_range.mpr hd
  unfold rule2
  generalize List.range 10 = l at hmem
  induction l generalizing t with
  | nil => cases hmem
  | cons i xs ih =>
    simp only [List.foldl_cons]
    by_cases hdi : d = i
    · subst hdi
      have hrow : (if is_present input d = false then setRow t d else t) d p
          = Hint.NotHere := by
        rw [if_pos (is_present_false input d hnp)]
        exact setRow_self t d p hp
      refine (writesOnly_foldl Hint.NotHere _ (fun i2 => ?_) xs).preserve_eq hrow
      intro t2 d2 p2
      by_cases hc : is_present input i2 = false
      · simpa [hc] using writesOnly_setRow i2 t2 d2 p2
      · left; simp [hc]
    · exact ih _ ((List.mem_cons.mp hmem).resolve_left hdi)

theorem writesOnly_rule3 (input : List Nat) :
    WritesOnly Hint.Maybe (rule3 input) := by
  refine writesOnly_foldl Hint.Maybe _ (fun i => ?_) _
  intro t d p
  dsimp only
  by_cases hc : t (input.getD i 0) i = Hint.Unknown
  · rw [if_pos hc]
    exact writesOnly_setCell (input.getD i 0) i Hint.Maybe t d p
  · rw [if_neg hc]; left; rfl

/-- Rule 3 never leaves a diagonal cell `(guess[i], i)` `Unknown`: it
either was not `Unknown`, or has just been overwritten with `Maybe`. -/
theorem rule3_fold (input : List Nat) (i : Nat) :
    ∀ (l : List Nat) (t : HintTable), i ∈ l →
      (l.foldl (fun t1 i2 =>
          if t1 (input.getD i2 0) i2 = Hint.Unknown
          then setCell t1 (input.getD i2 0) i2 Hint.Maybe
          else t1) t)
        (input.getD i 0) i ≠ Hint.Unknown := by
  intro l
  induction l with
  | nil => intro t h; cases h
  | cons j xs ih =>
    intro t hmem
    simp only [List.foldl_cons]
    by_cases hij : i = j
    · subst hij
      have hcell : (if t (input.getD i 0) i = Hint.Unknown
          then setCell t (input.getD i 0) i Hint.Maybe else t) (input.getD i 0) i
          ≠ Hint.Unknown := by
        by_cases hc : t (input.getD i 0) i = Hint.Unknown
        · rw [if_pos hc, setCell_self]; simp
        · rw [if_neg hc]; exact hc
      refine (writesOnly_foldl Hint.Maybe _ (fun i2 => ?_) xs).preserve_ne
        (by simp) hcell
      intro t2 d2 p2
      dsimp only
      by_cases hc : t2 (input.getD i2 0) i2 = Hint.Unknown
      · rw [if_pos hc]
        exact writesOnly_setCell (input.getD i2 0) i2 Hint.Maybe t2 d2 p2
      · rw [if_neg hc]; left; rfl
    · exact ih _ ((List.mem_cons.mp hmem).resolve_left hij)

theorem rule3_diag (input : List Nat) (t : HintTable) (i : Nat) (hi : i < 4) :
    rule3 input t (input.getD i 0) i ≠ Hint.Unknown :=
  rule3_fold input i (List.range 4) t (List.mem_range.mpr hi)

/-- Rule 3 only turns `Unknown` cells into `Maybe`, so a `NotHere` cell
survives it. -/
theorem rule3_preserve_notHere (input : List Nat) (t : HintTable) (d p : Nat)
    (h : t d p = Hint.NotHere) : rule3 input t d p = Hint.NotHere := by
  unfold rule3
  refine foldl_preserve (· = Hint.NotHere) _ d p ?_ _ t h
  intro t2 i2 h2
  by_cases hc : t2 (input.getD i2 0) i2 = Hint.Unknown
  · rw [if_pos hc]
    by_cases hdp : d = input.getD i2 0 ∧ p = i2
    · exfalso
      rw [hdp.1, hdp.2] at h2
      rw [h2] at hc
      cases hc
    · rw [setCell_other _ _ _ _ _ _ hdp]; exact h2
  · rw [if_neg hc]; exact h2

/-- The rule 4 loop body of the source assigns nothing (mod.rs line 224
is a discarded `==` comparison), so rule 4 is the identity on the
table. -/
theorem rule4_eq (input : List Nat) (bulls : Nat) (t : HintTable) :
    rule4 input bulls t = t := by
  unfold rule4
  split
  · have hfold : ∀ (l : List Nat) (t1 : HintTable),
        l.foldl (fun t1 i =>
          if t1 (input.getD i 0) i = Hint.Unknown then
            let _cmp := t1 (input.getD i 0) i == Hint.Here
            t1
          else t1) t1 = t1 := by
      intro l
      induction l with
      | nil => intro t1; rfl
      | cons j xs ih =>
        intro t1
        simp only [List.foldl_cons]
        rw [show (if t1 (input.getD j 0) j = Hint.Unknown then
              let _cmp := t1 (input.getD j 0) j == Hint.Here
              t1
            else t1) = t1 by
          by_cases hc : t1 (input.getD j 0) j = Hint.Unknown <;> simp [hc]]
        exact ih t1
    exact hfold _ t
  · rfl

theorem writesOnly_rule5 (input : List Nat) :
    WritesOnly Hint.NotHere (rule5 input) := by
  refine writesOnly_foldl Hint.NotHere _ (fun i => ?_) _
  intro t d p
  dsimp only
  by_cases hc : t (input.getD i 0) i = Hint.Maybe ∨ t (input.getD i 0) i = Hint.Unknown
  · rw [if_pos hc]
    exact writesOnly_setCell (input.getD i 0) i Hint.NotHere t d p
  · rw [if_neg hc]; left; rfl

/-- Rule 5 resolves every diagonal cell `(guess[i], i)` that was `Maybe`
or `Unknown` to `NotHere`. -/
theorem rule5_fold (input : List Nat) (i : Nat) :
    ∀ (l : List Nat) (t : HintTable), i ∈ l →
      (t (input.getD i 0) i = Hint.Maybe ∨ t (input.getD i 0) i = Hint.Unknown) →
      (l.foldl (fun t1 i2 =>
          if t1 (input.getD i2 0) i2 = Hint.Maybe ∨ t1 (input.getD i2 0) i2 = Hint.Unknown
          then setCell t1 (input.getD i2 0) i2 Hint.NotHere
          else t1) t)
        (input.getD i 0) i = Hint.NotHere := by
  intro l
  induction l with
  | nil => intro t h; cases h
  | cons j xs ih =>
    intro t hmem hcell
    simp only [List.foldl_cons]
    by_cases hij : i = j
    · subst hij
      have hcell2 : (if t (input.getD i 0) i = Hint.Maybe ∨ t (input.getD i 0) i = Hint.Unknown
          then setCell t (input.getD i 0) i Hint.NotHere else t) (input.getD i 0) i
          = Hint.NotHere := by
        rw [if_pos hcell, setCell_self]
      refine (writesOnly_foldl Hint.NotHere _ (fun i2 => ?_) xs).preserve_eq hcell2
      intro t2 d2 p2
      dsimp only
      by_cases hc : t2 (input.getD i2 0) i2 = Hint.Maybe ∨ t2 (input.getD i2 0) i2 = Hint.Unknown
      · rw [if_pos hc]
        exact writesOnly_setCell (input.getD i2 0) i2 Hint.NotHere t2 d2 p2
      · rw [if_neg hc]; left; rfl
    · have hstep : (if t (input.getD j 0) j = Hint.Maybe ∨ t (input.getD j 0) j = Hint.Unknown
          then setCell t (input.getD j 0) j Hint.NotHere else t) (input.getD i 0) i
          = t (input.getD i 0) i := by
        by_cases hc : t (input.getD j 0) j = Hint.Maybe ∨ t (input.getD j 0) j = Hint.Unknown
        · rw [if_pos hc]
          exact setCell_other _ _ _ _ _ _ (fun hand => hij hand.2)
        · rw [if_neg hc]
      refine ih _ ((List.mem_cons.mp hmem).resolve_left hij) ?_
      rw [hstep]
      exact hcell

theorem rule5_diag (input : List Nat) (t : HintTable) (i : Nat) (hi : i < 4)
    (hcell : t (input.getD i 0) i = Hint.Maybe ∨ t (input.getD i 0) i = Hint.Unknown) :
    rule5 input t (input.getD i 0) i = Hint.NotHere :=
  rule5_fold input i (List.range 4) t (List.mem_range.mpr hi) hcell

/-! ## Lemmas about the composed `analyze` body -/

/-- No rule of `analyze` ever writes the hint `h2` when `h2` is neither
`NotHere` nor `Maybe`; in particular cells never regress to `Unknown`
and never reach `Here`. -/
theorem analyzeCore_preserve_ne (input : List Nat) (cows bulls : Nat)
    (t : HintTable) (d p : Nat) (h2 : Hint) (hnh : Hint.NotHere ≠ h2)
    (hmb : Hint.Maybe ≠ h2) (ht : t d p ≠ h2) :
    analyzeCore input cows bulls t d p ≠ h2 := by
  have s1 : stage1 input cows bulls t d p ≠ h2 := by
    unfold stage1; split
    · exact (writesOnly_rule1 input).preserve_ne hnh ht
    · exact ht
  have s2 : stage2 input cows bulls (stage1 input cows bulls t) d p ≠ h2 := by
    unfold stage2; split
    · exact (writesOnly_rule2 input).preserve_ne hnh s1
    · exact s1
  have s3 : preRules input cows bulls t d p ≠ h2 := by
    unfold preRules stage3; split
    · exact (writesOnly_rule3 input).preserve_ne hmb s2
    · exact s2
  unfold analyzeCore
  by_cases hc1 : cows = 0 ∧ 0 < bulls
  · rw [if_pos hc1, rule4_eq]; exact s3
  · rw [if_neg hc1]
    by_cases hc2 : 0 < cows ∧ bulls = 0
    · rw [if_pos hc2]
      exact (writesOnly_rule5 input).preserve_ne hnh s3
    · rw [if_neg hc2]; exact s3

/-- With score `(0, 0)` only rule 1 fires. -/
theorem analyzeCore_zero_zero (input : List Nat) (t : HintTable) :
    analyzeCore input 0 0 t = rule1 input t := by
  unfold analyzeCore preRules stage3 stage2 stage1
  simp

/-- With `cows = 0 < bulls`, `analyze` runs rules 1–3 and then rule 4,
and rule 4 changes nothing. -/
theorem analyzeCore_pure_bulls (input : List Nat) (bulls : Nat) (t : HintTable)
    (hb : 0 < bulls) : analyzeCore input 0 bulls t = preRules input 0 bulls t := by
  unfold analyzeCore
  rw [if_pos ⟨rfl, hb⟩, rule4_eq]

/-- With `0 < cows` and `bulls = 0`, `analyze` runs rules 1–3 and then
rule 5. -/
theorem analyzeCore_pure_cows (input : List Nat) (cows : Nat) (t : HintTable)
    (hc : 0 < cows) :
    analyzeCore input cows 0 t = rule5 input (preRules input cows 0 t) := by
  unfold analyzeCore
  rw [if_neg (fun h => absurd h.2 (lt_irrefl 0)), if_pos ⟨hc, rfl⟩]

/-- Whenever `0 < bulls`, rule 3 has run, so right before rule 4 no
diagonal cell `(guess[i], i)` is still `Unknown`. -/
theorem preRules_diag (input : List Nat) (cows bulls : Nat) (t : HintTable)
    (i : Nat) (hb : 0 < bulls) (hi : i < 4) :
    preRules input cows bulls t (input.getD i 0) i ≠ Hint.Unknown := by
  unfold preRules stage3
  rw [if_pos hb]
  exact rule3_diag input _ i hi

/-- With `cows + bulls = 4`, rule 2 paints every absent digit's row
`NotHere` and no later rule repaints those cells. -/
theorem analyzeCore_sum_four (input : List Nat) (cows bulls : Nat) (t : HintTable)
    (hsum : cows + bulls = 4) (d p : Nat) (hd : d < 10) (hnp : d ∉ input)
    (hp : p < 4) : analyzeCore input cows bulls t d p = Hint.NotHere := by
  have s2 : stage2 input cows bulls (stage1 input cows bulls t) d p = Hint.NotHere := by
    unfold stage2
    rw [if_pos hsum]
    exact rule2_mem input _ d p hd hnp hp
  have s3 : preRules input cows bulls t d p = Hint.NotHere := by
    unfold preRules stage3
    split
    · exact rule3_preserve_notHere input _ d p s2
    · exact s2
  unfold analyzeCore
  by_cases hc1 : cows = 0 ∧ 0 < bulls
  · rw [if_pos hc1, rule4_eq]; exact s3
  · rw [if_neg hc1]
    by_cases hc2 : 0 < cows ∧ bulls = 0
    · rw [if_pos hc2]
      exact (writesOnly_rule5 input).preserve_eq s3
    · rw [if_neg hc2]; exact s3

/-! ## Lemmas about parsing -/

theorem parseDigit_isDigit {c : Char} (h : c.isDigit = true) :
    parseDigit c = some (c.toNat - 48) ∧ c.toNat - 48 < 10 := by
  constructor
  · simp [parseDigit, h]
  · unfold Char.isDigit at h
    simp only [Bool.and_eq_true, decide_eq_true_eq] at h
    have h3 : c.val.toNat ≤ 57 := by exact_mod_cast h.2
    unfold Char.toNat
    omega

theorem parseDigits_wf (s : List Char) (h : ∀ c ∈ s, c.isDigit = true) :
    ∃ ds, parseDigits s = some ds ∧ ds.length = s.length ∧ ∀ d ∈ ds, d < 10 := by
  induction s with
  | nil => exact ⟨[], rfl, rfl, by simp⟩
  | cons c cs ih =>
    obtain ⟨hc, hc10⟩ := parseDigit_isDigit (h c (List.mem_cons_self c cs))
    obtain ⟨ds, hds, hlen, hall⟩ := ih (fun c2 hc2 => h c2 (List.mem_cons_of_mem c hc2))
    refine ⟨(c.toNat - 48) :: ds, ?_, by simp [hlen], ?_⟩
    · simp [parseDigits, hc, hds]
    · intro d hd
      rcases List.mem_cons.mp hd with h1 | h1
      · exact h1 ▸ hc10
      · exact hall d h1

/-- On a well-formed 4-character numeral string, `from_string` succeeds
and returns 4 digits, each `< 10`. -/
theorem from_string_wf (s : List Char) (h : wfString s) :
    ∃ input, from_string s = some input ∧ input.length = 4 ∧ ∀ d ∈ input, d < 10 := by
  obtain ⟨hlen, hdig⟩ := h
  obtain ⟨ds, hds, hdslen, hall⟩ := parseDigits_wf s hdig
  rw [hlen] at hdslen
  have h0 : 0 < ds.length := by omega
  have h1 : 1 < ds.length := by omega
  have h2 : 2 < ds.length := by omega
  have h3 : 3 < ds.length := by omega
  refine ⟨[ds.get ⟨0, h0⟩, ds.get ⟨1, h1⟩, ds.get ⟨2, h2⟩, ds.get ⟨3, h3⟩], ?_, rfl, ?_⟩
  · simp [from_string, hds, List.get?_eq_get, h0, h1, h2, h3]
  · intro d hd
    have : ∀ (k : Nat) (hk : k < ds.length), ds.get ⟨k, hk⟩ ∈ ds :=
      fun k hk => List.get_mem ds k hk
    rcases List.mem_cons.mp hd with h | h
    · exact h ▸ hall _ (this 0 h0)
    rcases List.mem_cons.mp h with h | h
    · exact h ▸ hall _ (this 1 h1)
    rcases List.mem_cons.mp h with h | h
    · exact h ▸ hall _ (this 2 h2)
    rcases List.mem_cons.mp h with h | h
    · exact h ▸ hall _ (this 3 h3)
    · cases h

/-! ## Lemmas about the game state machine -/

/-- One engine call never writes the hint `h2` into the grid when `h2`
is neither `NotHere` nor `Maybe`. -/
theorem step_hint_table (g : Game) (op : EngineOp) (d p : Nat) (h2 : Hint)
    (hnh : Hint.NotHere ≠ h2) (hmb : Hint.Maybe ≠ h2)
    (ht : g.hint_table d p ≠ h2) : (g.step op).hint_table d p ≠ h2 := by
  cases op with
  | score v =>
    unfold Game.step Game.«try»
    cases hfs : from_string v with
    | none => simp only [hfs, Option.map_none']; exact ht
    | some input => simp only [hfs, Option.map_some']; exact ht
  | updateHints v cows bulls =>
    unfold Game.step Game.analyze
    cases hfs : from_string v with
    | none => simp only [hfs, Option.map_none']; exact ht
    | some input =>
      simp only [hfs, Option.map_some']
      exact analyzeCore_preserve_ne input cows bulls g.hint_table d p h2 hnh hmb ht
  | isSecret v => exact ht
  | hasUniqueDigits v => exact ht

theorem steps_preserve_ne (h2 : Hint) (hnh : Hint.NotHere ≠ h2)
    (hmb : Hint.Maybe ≠ h2) (ops : List EngineOp) :
    ∀ (g : Game) (d p : Nat), g.hint_table d p ≠ h2 →
      (g.steps ops).hint_table d p ≠ h2 := by
  induction ops with
  | nil => intro g d p ht; exact ht
  | cons op rest ih =>
    intro g d p ht
    exact ih _ d p (step_hint_table g op d p h2 hnh hmb ht)

theorem step_score_tries (g : Game) (v : List Char) (hwf : wfString v) :
    (g.step (EngineOp.score v)).tries = (g.tries + 1) % 2 ^ 32 := by
  obtain ⟨input, hfs, -, -⟩ := from_string_wf v hwf
  unfold Game.step Game.«try»
  simp [hfs]

theorem step_updateHints_tries (g : Game) (v : List Char) (cows bulls : Nat) :
    (g.step (EngineOp.updateHints v cows bulls)).tries = g.tries := by
  unfold Game.step Game.analyze
  cases hfs : from_string v <;> simp [hfs]

/-- The try counter after a well-formed call sequence that contains
fewer than `2 ^ 32` scoring calls. -/
theorem steps_tries (ops : List EngineOp) :
    ∀ g : Game, (∀ op ∈ ops, op.wf) → g.tries + scoreCount ops < 2 ^ 32 →
      (g.steps ops).tries = g.tries + scoreCount ops := by
  induction ops with
  | nil => intro g _ _; simp [Game.steps, scoreCount]
  | cons op rest ih =>
    intro g hwf hlt
    have hwfh := hwf op (List.mem_cons_self op rest)
    have hwfr : ∀ o ∈ rest, o.wf := fun o ho => hwf o (List.mem_cons_of_mem op ho)
    cases op with
    | score v =>
      have hsc : scoreCount (EngineOp.score v :: rest) = scoreCount rest + 1 := rfl
      rw [hsc] at hlt ⊢
      have htr : (g.step (EngineOp.score v)).tries = g.tries + 1 := by
        rw [step_score_tries g v hwfh, Nat.mod_eq_of_lt (by omega)]
      show ((g.step (EngineOp.score v)).steps rest).tries = _
      rw [ih _ hwfr (by rw [htr]; omega), htr]
      omega
    | updateHints v cows bulls =>
      have hsc : scoreCount (EngineOp.updateHints v cows bulls :: rest)
          = scoreCount rest := rfl
      rw [hsc] at hlt ⊢
      have htr := step_updateHints_tries g v cows bulls
      show ((g.step (EngineOp.updateHints v cows bulls)).steps rest).tries = _
      rw [ih _ hwfr (by rw [htr]; omega), htr]
    | isSecret v =>
      have hsc : scoreCount (EngineOp.isSecret v :: rest) = scoreCount rest := rfl
      rw [hsc] at hlt ⊢
      exact ih g hwfr hlt
    | hasUniqueDigits v =>
      have hsc : scoreCount (EngineOp.hasUniqueDigits v :: rest)
          = scoreCount rest := rfl
      rw [hsc] at hlt ⊢
      exact ih g hwfr hlt

/-! ## The scoring loop versus the specified counts -/

/-- Specification-side count (from the spec's words): `bulls` is the
number of positions `i` in `0..4` with `secret[i] = guess[i]`. -/
def specBulls (secret input : List Nat) : Nat :=
  (List.range 4).countP (fun i => decide (secret.getD i 0 = input.getD i 0))

/-- All ordered pairs `(i, j)` of positions `0..4`. -/
def posPairs : List (Nat × Nat) :=
  (List.range 4).flatMap (fun i => (List.range 4).map (fun j => (i, j)))

/-- The cow condition on an ordered pair of positions. -/
def cowPred (secret input : List Nat) (q : Nat × Nat) : Bool :=
  decide (q.1 ≠ q.2 ∧ secret.getD q.1 0 = input.getD q.2 0)

/-- Specification-side count (from the spec's words): `cows` is the
number of ordered pairs `(i, j)` with `i ≠ j` and `secret[i] = guess[j]`. -/
def specCows (secret input : List Nat) : Nat :=
  posPairs.countP (cowPred secret input)

theorem tryCore_inner (secret input : List Nat) (i : Nat) :
    ∀ (l : List Nat) (cb : Nat × Nat),
      l.foldl (fun cb3 j =>
          if i ≠ j ∧ secret.getD i 0 = input.getD j 0 then (cb3.1 + 1, cb3.2) else cb3) cb
        = (cb.1 + l.countP (fun j => decide (i ≠ j ∧ secret.getD i 0 = input.getD j 0)),
           cb.2) := by
  intro l
  induction l with
  | nil => intro cb; simp
  | cons x xs ihl =>
    intro cb
    simp only [List.foldl_cons, List.countP_cons]
    by_cases h : i ≠ x ∧ secret.getD i 0 = input.getD x 0
    · rw [if_pos h, ihl]
      simp only [decide_eq_true h, if_true]
      exact Prod.ext (by dsimp; omega) rfl
    · rw [if_neg h, ihl]
      simp only [decide_eq_false h, Bool.false_eq_true, if_false]
      exact Prod.ext (by try dsimp; try omega) rfl

theorem countP_map_pair (secret input : List Nat) (i : Nat) (l : List Nat) :
    (l.map (fun j => (i, j))).countP (cowPred secret input)
      = l.countP (fun j => decide (i ≠ j ∧ secret.getD i 0 = input.getD j 0)) := by
  induction l with
  | nil => rfl
  | cons j js ih =>
    simp only [List.map_cons, List.countP_cons, ih]
    rfl

theorem tryCore_outer (secret input : List Nat) :
    ∀ (l : List Nat) (cb : Nat × Nat),
      l.foldl (fun cb i =>
          let cb2 := if secret.getD i 0 = input.getD i 0 then (cb.1, cb.2 + 1) else cb
          (List.range 4).foldl (fun cb3 j =>
              if i ≠ j ∧ secret.getD i 0 = input.getD j 0 then (cb3.1 + 1, cb3.2) else cb3)
            cb2) cb
        = (cb.1 + (l.flatMap (fun i => (List.range 4).map (fun j => (i, j)))).countP
              (cowPred secret input),
           cb.2 + l.countP (fun i => decide (secret.getD i 0 = input.getD i 0))) := by
  intro l
  induction l with
  | nil => intro cb; simp
  | cons i xs ihl =>
    intro cb
    simp only [List.foldl_cons, List.flatMap_cons, List.countP_append, List.countP_cons,
      countP_map_pair]
    by_cases hb : secret.getD i 0 = input.getD i 0
    · rw [if_pos hb, tryCore_inner secret input i, ihl]
      simp only [decide_eq_true hb, if_true]
      exact Prod.ext (by dsimp; omega) (by dsimp; omega)
    · rw [if_neg hb, tryCore_inner secret input i, ihl]
      simp only [decide_eq_false hb, Bool.false_eq_true, if_false]
      exact Prod.ext (by try dsimp; try omega) (by try dsimp; try omega)

/-- The scoring loops compute exactly the specified `(cows, bulls)`. -/
theorem tryCore_spec (secret input : List Nat) :
    tryCore secret input = (specCows secret input, specBulls secret input) := by
  unfold tryCore specCows specBulls posPairs
  rw [tryCore_outer secret input (List.range 4) (0, 0)]
  simp

/-! ## Uniqueness check -/

/-- The `i < j` double loop of `check_unique_digits` decides pairwise
distinctness of the 4 positions. -/
theorem check_unique_core_iff (input : List Nat) :
    check_unique_digitsCore input = true ↔
      ∀ i, i < 4 → ∀ j, j < 4 → i ≠ j → input.getD i 0 ≠ input.getD j 0 := by
  unfold check_unique_digitsCore
  simp only [List.all_eq_true, List.mem_range, List.mem_range'_1,
    Bool.not_eq_true', beq_eq_false_iff_ne]
  constructor
  · intro h i hi j hj hne
    rcases Nat.lt_or_ge i j with hij | hij
    · exact h i hi j ⟨by omega, by omega⟩
    · have : i > j := by omega
      exact (h j hj i ⟨by omega, by omega⟩).symm
  · intro h i hi j hj
    exact h i hi j (by omega) (by omega)

instance (op : EngineOp) : Decidable op.wf :=
  match op with
  | .score v => inferInstanceAs (Decidable (wfString v))
  | .updateHints v _ _ => inferInstanceAs (Decidable (wfString v))
  | .isSecret v => inferInstanceAs (Decidable (wfString v))
  | .hasUniqueDigits v => inferInstanceAs (Decidable (wfString v))

/-! ## Concrete states used to exercise the theorems -/

/-- The all-`Unknown` grid of a fresh game. -/
def unknownGrid : HintTable := fun _ _ => Hint.Unknown

/-- The all-`Maybe` grid. -/
def maybeGrid : HintTable := fun _ _ => Hint.Maybe

/-- A grid with three diagonal cells already `NotHere` and one `Maybe`,
giving rule 4 a satisfiable `c + bulls = 4` count. -/
def c1Grid : HintTable :=
  fun d p =>
    if d = p + 1 ∧ p < 3 then Hint.NotHere
    else if d = 4 ∧ p = 3 then Hint.Maybe
    else Hint.Unknown

/-- A short well-formed call sequence exercising all four operations. -/
def c3Ops : List EngineOp :=
  [EngineOp.score ['1', '2', '3', '4'],
   EngineOp.updateHints ['5', '6', '7', '8'] 0 0,
   EngineOp.isSecret ['1', '2', '3', '4'],
   EngineOp.hasUniqueDigits ['1', '2', '3', '4']]

/-- A well-formed sequence with two scoring calls and one win check. -/
def c9Ops : List EngineOp :=
  [EngineOp.score ['1', '2', '3', '4'],
   EngineOp.isSecret ['1', '2', '3', '4'],
   EngineOp.score ['5', '6', '7', '8']]

/-! ## The claims -/

/-- C1: in a call to `analyze` (`updateHints`) with `cows = 0 < bulls`,
let `c` count the positions `i` whose diagonal cell `grid[guess[i]][i]`
is `NotHere` just before rule 4 runs.  If `c + bulls = 4`, then after
the call every such diagonal cell that was `Unknown` before rule 4 holds
`Here`.  (On this code the conclusion is vacuous: rule 3 has already
turned every `Unknown` diagonal cell into `Maybe` whenever `bulls > 0`,
and rule 4's would-be assignment, mod.rs line 224, is a discarded `==`
comparison.) -/
theorem analyze_pure_bulls_resolution (t : HintTable) (input : List Nat)
    (bulls : Nat) (_hlen : input.length = 4) (hb : 0 < bulls)
    (_hc : countNotHere input (preRules input 0 bulls t) + bulls = 4) :
    ∀ i, i < 4 → preRules input 0 bulls t (input.getD i 0) i = Hint.Unknown →
      analyzeCore input 0 bulls t (input.getD i 0) i = Hint.Here := by
  intro i hi hu
  exact absurd hu (preRules_diag input 0 bulls t i hb hi)

theorem analyze_pure_bulls_resolution_witness :
    ([1, 2, 3, 4] : List Nat).length = 4 ∧ 0 < 1 ∧
      countNotHere [1, 2, 3, 4] (preRules [1, 2, 3, 4] 0 1 c1Grid) + 1 = 4 ∧
      (preRules [1, 2, 3, 4] 0 1 c1Grid (([1, 2, 3, 4] : List Nat).getD 0 0) 0
          = Hint.Unknown →
        analyzeCore [1, 2, 3, 4] 0 1 c1Grid (([1, 2, 3, 4] : List Nat).getD 0 0) 0
          = Hint.Here) :=
  ⟨rfl, by decide, by decide,
    analyze_pure_bulls_resolution c1Grid [1, 2, 3, 4] 1 rfl (by decide) (by decide)
      0 (by decide)⟩

/-- C2: `try` returns the pair `(cows, bulls)` where `bulls` is the
number of positions `i` in `0..4` with `secret[i] = guess[i]` and `cows`
is the number of ordered pairs `(i, j)`, `i ≠ j`, with
`secret[i] = guess[j]`. -/
theorem try_scores_spec (secret input : List Nat) :
    tryCore secret input = (specCows secret input, specBulls secret input) :=
  tryCore_spec secret input

theorem try_scores_spec_witness :
    tryCore [6, 4, 3, 7] [1, 2, 3, 4] = (specCows [6, 4, 3, 7] [1, 2, 3, 4],
      specBulls [6, 4, 3, 7] [1, 2, 3, 4]) :=
  try_scores_spec [6, 4, 3, 7] [1, 2, 3, 4]

/-- C3: starting from a freshly constructed game, no sequence of
well-formed engine calls ever puts `Here` into any cell of the 10×4
grid: rule 4's would-be `Here` assignment (mod.rs line 224) is a
discarded comparison, and no other rule writes `Here`. -/
theorem hint_grid_never_here (secret : List Nat) (ops : List EngineOp)
    (hwf : ∀ op ∈ ops, op.wf) (d p : Nat) (_hd : d < 10) (_hp : p < 4) :
    ((Game.new secret).steps ops).hint_table d p ≠ Hint.Here := by
  have h0 : (Game.new secret).hint_table d p ≠ Hint.Here := by
    intro h
    cases h
  have _ := hwf
  exact steps_preserve_ne Hint.Here (by decide) (by decide) ops (Game.new secret) d p h0

theorem hint_grid_never_here_witness :
    ((Game.new [6, 4, 3, 7]).steps c3Ops).hint_table 5 2 ≠ Hint.Here :=
  hint_grid_never_here [6, 4, 3, 7] c3Ops (by decide) 5 2 (by decide) (by decide)

/-- C4: `analyze` never turns a cell that holds `Maybe`, `Here` or
`NotHere` back into `Unknown`, whatever `cows` and `bulls` are. -/
theorem analyze_never_resets_to_unknown (t : HintTable) (input : List Nat)
    (cows bulls d p : Nat) (_hlen : input.length = 4)
    (ht : t d p ≠ Hint.Unknown) :
    analyzeCore input cows bulls t d p ≠ Hint.Unknown :=
  analyzeCore_preserve_ne input cows bulls t d p Hint.Unknown (by decide) (by decide) ht

theorem analyze_never_resets_to_unknown_witness :
    maybeGrid 3 2 ≠ Hint.Unknown ∧
      analyzeCore [1, 2, 3, 4] 1 1 maybeGrid 3 2 ≠ Hint.Unknown :=
  ⟨by decide,
    analyze_never_resets_to_unknown maybeGrid [1, 2, 3, 4] 1 1 3 2 rfl (by decide)⟩

/-- C5: after a call to `analyze` with `cows = 0` and `bulls = 0`, every
cell of every row belonging to a digit of the guess holds `NotHere`. -/
theorem analyze_zero_zero_notHere (t : HintTable) (input : List Nat) (d p : Nat)
    (hd : d ∈ input) (hp : p < 4) :
    analyzeCore input 0 0 t d p = Hint.NotHere := by
  rw [analyzeCore_zero_zero]
  exact rule1_mem input t d p hd hp

theorem analyze_zero_zero_notHere_witness :
    (2 : Nat) ∈ ([1, 2, 5, 8] : List Nat) ∧ 3 < 4 ∧
      analyzeCore [1, 2, 5, 8] 0 0 unknownGrid 2 3 = Hint.NotHere :=
  ⟨by decide, by decide,
    analyze_zero_zero_notHere unknownGrid [1, 2, 5, 8] 2 3 (by decide) (by decide)⟩

/-- C6: after a call to `analyze` with `cows + bulls = 4`, every cell of
every row belonging to a digit `0 ≤ d < 10` that appears nowhere in the
guess holds `NotHere`. -/
theorem analyze_sum_four_absent_notHere (t : HintTable) (input : List Nat)
    (cows bulls d p : Nat) (_hlen : input.length = 4) (hsum : cows + bulls = 4)
    (hd : d < 10) (hnp : d ∉ input) (hp : p < 4) :
    analyzeCore input cows bulls t d p = Hint.NotHere :=
  analyzeCore_sum_four input cows bulls t hsum d p hd hnp hp

theorem analyze_sum_four_absent_notHere_witness :
    4 + 0 = 4 ∧ (0 : Nat) < 10 ∧ (0 : Nat) ∉ ([7, 3, 4, 6] : List Nat) ∧ 1 < 4 ∧
      analyzeCore [7, 3, 4, 6] 4 0 unknownGrid 0 1 = Hint.NotHere :=
  ⟨rfl, by decide, by decide, by decide,
    analyze_sum_four_absent_notHere unknownGrid [7, 3, 4, 6] 4 0 0 1 rfl rfl
      (by decide) (by decide) (by decide)⟩

/-- C7: after a call to `analyze` with `0 < cows` and `bulls = 0`, every
diagonal cell `grid[guess[i]][i]` that held `Maybe` or `Unknown` just
before rule 5 runs holds `NotHere`. -/
theorem analyze_pure_cows_notHere (t : HintTable) (input : List Nat)
    (cows : Nat) (_hlen : input.length = 4) (hcows : 0 < cows) (i : Nat)
    (hi : i < 4)
    (hcell : preRules input cows 0 t (input.getD i 0) i = Hint.Maybe ∨
      preRules input cows 0 t (input.getD i 0) i = Hint.Unknown) :
    analyzeCore input cows 0 t (input.getD i 0) i = Hint.NotHere := by
  rw [analyzeCore_pure_cows input cows t hcows]
  exact rule5_diag input _ i hi hcell

theorem analyze_pure_cows_notHere_witness :
    (preRules [1, 2, 3, 4] 1 0 unknownGrid (([1, 2, 3, 4] : List Nat).getD 0 0) 0
        = Hint.Maybe ∨
      preRules [1, 2, 3, 4] 1 0 unknownGrid (([1, 2, 3, 4] : List Nat).getD 0 0) 0
        = Hint.Unknown) ∧
      analyzeCore [1, 2, 3, 4] 1 0 unknownGrid (([1, 2, 3, 4] : List Nat).getD 0 0) 0
        = Hint.NotHere :=
  ⟨by decide,
    analyze_pure_cows_notHere unknownGrid [1, 2, 3, 4] 1 rfl (by decide) 0 (by decide)
      (by decide)⟩

/-- C8: on any string of exactly 4 decimal-numeral characters, parsing
succeeds and yields 4 digits each `< 10` (so every hint-table row index
is inside the 10×4 bounds), and `guess`, `try`, `analyze` and
`check_unique_digits` all return normally. -/
theorem engine_total_on_wellformed (s : List Char) (g : Game) (cows bulls : Nat)
    (hlen : s.length = 4) (hdig : ∀ c ∈ s, c.isDigit = true) :
    (from_string s).isSome = true ∧
      (∀ input, from_string s = some input → input.length = 4 ∧ ∀ d ∈ input, d < 10) ∧
      (g.guess s).isSome = true ∧
      (g.«try» s).isSome = true ∧
      (g.analyze s cows bulls).isSome = true ∧
      (g.check_unique_digits s).isSome = true := by
  obtain ⟨input, hfs, hilen, hi10⟩ := from_string_wf s ⟨hlen, hdig⟩
  refine ⟨by simp [hfs], ?_, ?_, ?_, ?_, ?_⟩
  · intro input2 hfs2
    rw [hfs] at hfs2
    cases hfs2
    exact ⟨hilen, hi10⟩
  all_goals simp [Game.guess, Game.«try», Game.analyze, Game.check_unique_digits, hfs]

theorem engine_total_on_wellformed_witness :
    (from_string ['0', '9', '3', '4']).isSome = true ∧
      ((Game.new [6, 4, 3, 7]).analyze ['0', '9', '3', '4'] 1 2).isSome = true :=
  ⟨(engine_total_on_wellformed ['0', '9', '3', '4'] (Game.new [6, 4, 3, 7]) 1 2 rfl
      (by decide)).1,
   (engine_total_on_wellformed ['0', '9', '3', '4'] (Game.new [6, 4, 3, 7]) 1 2 rfl
      (by decide)).2.2.2.2.1⟩

/-- C9: the try counter of a fresh game is 0; each `try` (score) call
adds exactly one and `guess` (win check) adds nothing, so after a
well-formed call sequence with `N < 2 ^ 32` scoring calls the counter
equals `N`. -/
theorem try_count_tracks_scores (secret : List Nat) (ops : List EngineOp)
    (hwf : ∀ op ∈ ops, op.wf) (hN : scoreCount ops < 2 ^ 32) :
    (Game.new secret).tries = 0 ∧
      ((Game.new secret).steps ops).tries = scoreCount ops := by
  refine ⟨rfl, ?_⟩
  have h := steps_tries ops (Game.new secret) hwf
    (by simpa [Game.new] using hN)
  simpa [Game.new] using h

theorem try_count_tracks_scores_witness :
    (Game.new [6, 4, 3, 7]).tries = 0 ∧
      ((Game.new [6, 4, 3, 7]).steps c9Ops).tries = scoreCount c9Ops :=
  try_count_tracks_scores [6, 4, 3, 7] c9Ops (by decide) (by norm_num [c9Ops, scoreCount])

/-- C10: `check_unique_digits` returns `true` iff no two of the 4
positions of the guess hold the same digit; in particular it is `true`
on `[1, 2, 3, 4]` and `false` on `[1, 1, 2, 3]`. -/
theorem check_unique_digits_iff_distinct (input : List Nat)
    (_hlen : input.length = 4) :
    (check_unique_digitsCore input = true ↔
      ∀ i, i < 4 → ∀ j, j < 4 → i ≠ j → input.getD i 0 ≠ input.getD j 0) ∧
    check_unique_digitsCore [1, 2, 3, 4] = true ∧
    check_unique_digitsCore [1, 1, 2, 3] = false :=
  ⟨check_unique_core_iff input, by decide, by decide⟩

theorem check_unique_digits_iff_distinct_witness :
    check_unique_digitsCore [1, 2, 3, 4] = true ∧
      check_unique_digitsCore [1, 1, 2, 3] = false :=
  ⟨(check_unique_digits_iff_distinct [1, 2, 3, 4] rfl).2.1,
   (check_unique_digits_iff_distinct [1, 2, 3, 4] rfl).2.2⟩
